import Mathlib

/-!
Verification of the mempool.dat streaming decoder (`src/stream.rs`,
`src/mempool.rs`).

The Rust sources are shallowly embedded: the underlying seekable byte
source (`BufReader<File>`) is modelled as a byte list together with a
cursor, machine integers are `Nat`/`Int` with explicit two-complement
conversion, and fallible operations return `Except`.  The external
transaction codec (`bitcoin::Transaction::consensus_decode`) is out of
scope for the repository and is modelled as an opaque decoder parameter
that consumes a prefix of the (deciphered) remaining stream.
-/

set_option maxRecDepth 10000

namespace MempoolRs

/-- Errors surfaced by the modelled `std::io` layer: `eof` stands for
`ErrorKind::UnexpectedEof` from a failed `read_exact`, `positionUnknown`
for the "XorReader: position unknown for XOR application" error, and
`invalidData` for the `ErrorKind::InvalidData` error wrapping a failed
transaction decode. -/
inductive IOError where
  | eof : IOError
  | positionUnknown : IOError
  | invalidData : IOError
  deriving DecidableEq, Repr

/-- The error enum `MempoolError` from `src/mempool.rs` (string payloads are
replaced by the structured `IOError` cause). -/
inductive MempoolError where
  | io : IOError → MempoolError
  | headerRead : IOError → MempoolError
  | entryRead : Nat → IOError → MempoolError
  | xorKeyRead : IOError → MempoolError
  deriving DecidableEq, Repr

/-- The inner loop of `xor_buffer` in `src/stream.rs`: walk the data with a
running key index `j` that wraps to `0` when it reaches the key length. -/
def xorLoop (key : List UInt8) : List UInt8 → Nat → List UInt8
  | [], _ => []
  | b :: rest, j =>
      (b ^^^ key.getD j 0) :: xorLoop key rest (if j + 1 = key.length then 0 else j + 1)

/-- `xor_buffer` from `src/stream.rs`: XOR a buffer with a key starting at a
given offset; an empty key leaves the buffer untouched. -/
def xor_buffer (data key : List UInt8) (key_offset : Nat) : List UInt8 :=
  if key.isEmpty then data
  else xorLoop key data (key_offset % key.length)

/-- The `XorReader` struct from `src/stream.rs`.  The wrapped
`R: Read + Seek` source is modelled as the full byte sequence `fileData`
together with the cursor of the source; `position` is the tracked
absolute stream position (`None` when position tracking was lost). -/
structure XorReader where
  fileData : List UInt8
  cursor : Nat
  xor_key : List UInt8
  position : Option Nat
  deriving DecidableEq, Repr

namespace XorReader

/-- Bytes the underlying source has not yet yielded. -/
def remaining (r : XorReader) : List UInt8 :=
  r.fileData.drop r.cursor

/-- `XorReader::new` from `src/stream.rs`.  `spos` is the outcome of
`reader.stream_position()`; `.ok()` turns it into an `Option`, and the
constructor itself always succeeds. -/
def new (fileData : List UInt8) (cursor : Nat) (spos : Except IOError Nat)
    (xor_key : List UInt8) : Except IOError XorReader :=
  Except.ok { fileData := fileData, cursor := cursor, xor_key := xor_key,
              position := spos.toOption }

/-- Advance the underlying cursor and the tracked position by `n` bytes
(the position is only updated when it is being tracked). -/
def advance (r : XorReader) (n : Nat) : XorReader :=
  { r with cursor := r.cursor + n, position := r.position.map (· + n) }

/-- `XorReader::read_exact` from `src/stream.rs`: fill a buffer of `n` bytes
from the underlying source (failing with `eof` when it runs short), then if
a non-empty key is configured XOR the buffer at the tracked position, failing
with `positionUnknown` when the position is not tracked. -/
def read_exact (r : XorReader) (n : Nat) : Except IOError (List UInt8 × XorReader) :=
  if n ≤ r.fileData.length - r.cursor then
    let buf := (r.fileData.drop r.cursor).take n
    if r.xor_key.isEmpty then
      Except.ok (buf, r.advance n)
    else
      match r.position with
      | some pos => Except.ok (xor_buffer buf r.xor_key pos, r.advance n)
      | none => Except.error IOError.positionUnknown
  else
    Except.error IOError.eof

/-- `Read::read` for `XorReader` from `src/stream.rs`: a short read is
allowed (at end of stream zero bytes are returned), the cipher is applied
only to the bytes actually read, and `positionUnknown` is raised only when
at least one byte was read under a non-empty key. -/
def read (r : XorReader) (n : Nat) : Except IOError (List UInt8 × XorReader) :=
  let bytesRead := min n (r.fileData.length - r.cursor)
  let buf := (r.fileData.drop r.cursor).take n
  if 0 < bytesRead ∧ ¬ r.xor_key.isEmpty then
    match r.position with
    | some pos => Except.ok (xor_buffer buf r.xor_key pos, r.advance bytesRead)
    | none => Except.error IOError.positionUnknown
  else
    Except.ok (buf, r.advance bytesRead)

end XorReader

/-- Little-endian byte decomposition, least significant byte first;
`toLEBytes 8 v` models `u64::to_le_bytes`. -/
def toLEBytes : Nat → Nat → List UInt8
  | 0, _ => []
  | k + 1, v => UInt8.ofNat (v % 256) :: toLEBytes k (v / 256)

/-- Little-endian recomposition of a byte list into a natural number;
on an 8-byte list this models `u64::from_le_bytes`. -/
def u64_from_le (bs : List UInt8) : Nat :=
  bs.foldr (fun b acc => acc * 256 + b.toNat) 0

/-- Two-complement reading of a `u64` bit pattern as an `i64`. -/
def toInt64 (u : Nat) : Int :=
  if u < 2 ^ 63 then (u : Int) else (u : Int) - 2 ^ 64

/-- `i64::from_le_bytes` composed with the raw byte read. -/
def i64_from_le (bs : List UInt8) : Int :=
  toInt64 (u64_from_le bs)

/-- `XorReader::read_u64_le` from `src/stream.rs`. -/
def XorReader.read_u64_le (r : XorReader) : Except IOError (Nat × XorReader) :=
  match r.read_exact 8 with
  | Except.ok (buf, r') => Except.ok (u64_from_le buf, r')
  | Except.error e => Except.error e

/-- `XorReader::read_i64_le` from `src/stream.rs`. -/
def XorReader.read_i64_le (r : XorReader) : Except IOError (Int × XorReader) :=
  match r.read_exact 8 with
  | Except.ok (buf, r') => Except.ok (i64_from_le buf, r')
  | Except.error e => Except.error e

/-- The `FileHeader` struct from `src/mempool.rs` (`u64` fields as `Nat`). -/
structure FileHeader where
  version : Nat
  num_tx : Nat
  deriving DecidableEq, Repr

/-- The `MempoolEntry` struct from `src/mempool.rs`; the decoded transaction
type is the opaque parameter `τ`. -/
structure MempoolEntry (τ : Type) where
  first_seen_time : Int
  fee_delta : Int
  transaction : τ
  deriving DecidableEq, Repr

/-- The `FeeDelta` struct from `src/mempool.rs` (never populated: mapDeltas
decoding is unimplemented in the source). -/
structure FeeDelta where
  txid : List UInt8
  delta : Int
  deriving DecidableEq, Repr

/-- The `Mempool` struct from `src/mempool.rs`. -/
structure Mempool (τ : Type) where
  header : FileHeader
  xor_key : Option (List UInt8)
  entries : List (MempoolEntry τ)
  map_deltas : List FeeDelta
  deriving DecidableEq, Repr

/-- Modelled from the spec: the external transaction codec
(`Transaction::consensus_decode` from rust-bitcoin, out of scope for this
repository).  Given the deciphered remaining stream it either fails or
returns the decoded transaction together with the exact number of bytes of
the stream it consumed. -/
def TxDecoder (τ : Type) : Type :=
  List UInt8 → Option (τ × Nat)

/-- The deciphered view of the remaining stream: what a sequence of `read`
calls through the `XorReader` would yield.  With an empty key the bytes pass
through unchanged; with a non-empty key they are XORed at the tracked
position, and `none` records that any non-empty read would fail with
`positionUnknown`. -/
def decipherView (r : XorReader) : Option (List UInt8) :=
  if r.xor_key.isEmpty then some r.remaining
  else
    match r.position with
    | some pos => some (xor_buffer r.remaining r.xor_key pos)
    | none => none

/-- `read_mempool_entry` from `src/mempool.rs`: decode one transaction
through the `XorReader` (via the external codec), then read the
`first_seen_time` and `fee_delta` fields. -/
def read_mempool_entry {τ : Type} (dec : TxDecoder τ) (r : XorReader) :
    Except IOError (MempoolEntry τ × XorReader) :=
  match decipherView r with
  | none => Except.error IOError.positionUnknown
  | some view =>
    match dec view with
    | none => Except.error IOError.invalidData
    | some (tx, n) =>
      let r1 := r.advance (min n view.length)
      match r1.read_i64_le with
      | Except.error e => Except.error e
      | Except.ok (ts, r2) =>
        match r2.read_i64_le with
        | Except.error e => Except.error e
        | Except.ok (fd, r3) =>
          Except.ok ({ first_seen_time := ts, fee_delta := fd, transaction := tx }, r3)

/-- The entry loop of `read_mempool_from_path` in `src/mempool.rs`: decode
the given number of entries in sequence, tagging the first failure with its
zero-based index `idx` and aborting there. -/
def readEntries {τ : Type} (dec : TxDecoder τ) (idx : Nat) (r : XorReader) :
    Nat → Except MempoolError (List (MempoolEntry τ) × XorReader)
  | 0 => Except.ok ([], r)
  | k + 1 =>
    match read_mempool_entry dec r with
    | Except.error e => Except.error (MempoolError.entryRead idx e)
    | Except.ok (en, r') =>
      match readEntries dec (idx + 1) r' k with
      | Except.error e => Except.error e
      | Except.ok (es, r'') => Except.ok (en :: es, r'')

/-- Read `n` bytes from the plain (pre-`XorReader`) `BufReader` at the given
cursor, as `std::io::Read::read_exact` does. -/
def plainReadExact (data : List UInt8) (cursor n : Nat) :
    Except IOError (List UInt8 × Nat) :=
  if n ≤ data.length - cursor then
    Except.ok ((data.drop cursor).take n, cursor + n)
  else
    Except.error IOError.eof

/-- `read_mempool_from_path` from `src/mempool.rs`, on the byte content of
the opened file: read the plaintext version, for version 2 read the key length
byte and key, construct the `XorReader` (whose `stream_position()` reports
the current cursor), read the possibly obfuscated `num_tx`, then decode that
many entries. -/
def read_mempool {τ : Type} (dec : TxDecoder τ) (fileData : List UInt8) :
    Except MempoolError (Mempool τ) :=
  match plainReadExact fileData 0 8 with
  | Except.error e => Except.error (MempoolError.headerRead e)
  | Except.ok (vb, c1) =>
    let version := u64_from_le vb
    let keyStep : Except MempoolError (Option (List UInt8) × Nat) :=
      if version = 2 then
        match plainReadExact fileData c1 1 with
        | Except.error e => Except.error (MempoolError.xorKeyRead e)
        | Except.ok (sb, c2) =>
          let keySize := (sb.getD 0 0).toNat
          match plainReadExact fileData c2 keySize with
          | Except.error e => Except.error (MempoolError.xorKeyRead e)
          | Except.ok (key, c3) => Except.ok (some key, c3)
      else Except.ok (none, c1)
    match keyStep with
    | Except.error e => Except.error e
    | Except.ok (xor_key, ck) =>
      match XorReader.new fileData ck (Except.ok ck) (xor_key.getD []) with
      | Except.error e => Except.error (MempoolError.io e)
      | Except.ok r =>
        match r.read_u64_le with
        | Except.error e => Except.error (MempoolError.headerRead e)
        | Except.ok (num_tx, r1) =>
          match readEntries dec 0 r1 num_tx with
          | Except.error e => Except.error e
          | Except.ok (entries, _) =>
            Except.ok { header := { version := version, num_tx := num_tx },
                        xor_key := xor_key, entries := entries, map_deltas := [] }

/-- A sequence of consecutive `read_exact` calls with the given sizes,
concatenating the buffers they return. -/
def readExactSeq (r : XorReader) : List Nat → Except IOError (List UInt8 × XorReader)
  | [] => Except.ok ([], r)
  | n :: ns =>
    match r.read_exact n with
    | Except.error e => Except.error e
    | Except.ok (b, r1) =>
      match readExactSeq r1 ns with
      | Except.error e => Except.error e
      | Except.ok (bs, r2) => Except.ok (b ++ bs, r2)

/-- Reference version of one entry decode acting directly on the deciphered
byte stream: decode a transaction, then take the two trailing 8-byte
integers. -/
def entryPure {τ : Type} (dec : TxDecoder τ) (s : List UInt8) :
    Except IOError (MempoolEntry τ × List UInt8) :=
  match dec s with
  | none => Except.error IOError.invalidData
  | some (tx, n) =>
    let s1 := s.drop (min n s.length)
    if 8 ≤ s1.length then
      let s2 := s1.drop 8
      if 8 ≤ s2.length then
        Except.ok ({ first_seen_time := i64_from_le (s1.take 8),
                     fee_delta := i64_from_le (s2.take 8), transaction := tx },
                   s2.drop 8)
      else Except.error IOError.eof
    else Except.error IOError.eof

/-- Reference version of the entry loop acting directly on the deciphered
byte stream, tagging the first failure with its zero-based index. -/
def entriesPure {τ : Type} (dec : TxDecoder τ) (idx : Nat) (s : List UInt8) :
    Nat → Except MempoolError (List (MempoolEntry τ) × List UInt8)
  | 0 => Except.ok ([], s)
  | k + 1 =>
    match entryPure dec s with
    | Except.error e => Except.error (MempoolError.entryRead idx e)
    | Except.ok (en, s') =>
      match entriesPure dec (idx + 1) s' k with
      | Except.error e => Except.error e
      | Except.ok (es, s'') => Except.ok (en :: es, s'')

/-- A well-formed on-disk entry, described by the serialized transaction
bytes, the transaction value the codec decodes them to, and the raw bytes of
the two trailing metadata fields. -/
structure EntrySpec (τ : Type) where
  txBytes : List UInt8
  tx : τ
  tsBytes : List UInt8
  fdBytes : List UInt8

/-- On-disk encoding of one entry. -/
def encodeEntry {τ : Type} (e : EntrySpec τ) : List UInt8 :=
  e.txBytes ++ e.tsBytes ++ e.fdBytes

/-- On-disk encoding of a sequence of entries. -/
def encodeEntries {τ : Type} (l : List (EntrySpec τ)) : List UInt8 :=
  (l.map encodeEntry).flatten

/-- The decoded `MempoolEntry` an entry spec denotes. -/
def specEntry {τ : Type} (e : EntrySpec τ) : MempoolEntry τ :=
  { first_seen_time := i64_from_le e.tsBytes, fee_delta := i64_from_le e.fdBytes,
    transaction := e.tx }

/-- The metadata fields of every spec in the list are exactly 8 bytes. -/
def WellFormedSpecs {τ : Type} (l : List (EntrySpec τ)) : Prop :=
  ∀ e ∈ l, e.tsBytes.length = 8 ∧ e.fdBytes.length = 8

/-- The external codec decodes the transaction bytes of each spec to its
transaction value, consuming exactly those bytes, whatever follows them. -/
def DecodesSpecs {τ : Type} (dec : TxDecoder τ) (l : List (EntrySpec τ)) : Prop :=
  ∀ e ∈ l, ∀ suffix : List UInt8, dec (e.txBytes ++ suffix) = some (e.tx, e.txBytes.length)

/-- Forget the parts of a decode result that depend on the header version
and key, keeping the transaction count and the decoded entries. -/
def stripVK {τ : Type} :
    Except MempoolError (Mempool τ) → Except MempoolError (Nat × List (MempoolEntry τ))
  | Except.error e => Except.error e
  | Except.ok m => Except.ok (m.header.num_tx, m.entries)

/-- A transaction decoder that always fails (used to exercise dumps whose
entry section is never reached or always rejected). -/
def decNone : TxDecoder Nat := fun _ => none

/-- A transaction decoder recognising the one-byte transaction `0x01`,
consuming exactly that byte. -/
def decOne : TxDecoder Nat := fun s =>
  match s with
  | b :: _ => if b = 0x01 then some (7, 1) else none
  | [] => none

/-- Replace the reader component of an entry-decode result by the bytes the
underlying source has left. -/
def stripEntryResult {τ : Type} :
    Except IOError (MempoolEntry τ × XorReader) →
      Except IOError (MempoolEntry τ × List UInt8)
  | Except.error e => Except.error e
  | Except.ok (en, r) => Except.ok (en, r.remaining)

/-- Replace the reader component of an entry-loop result by the bytes the
underlying source has left. -/
def stripEntriesResult {τ : Type} :
    Except MempoolError (List (MempoolEntry τ) × XorReader) →
      Except MempoolError (List (MempoolEntry τ) × List UInt8)
  | Except.error e => Except.error e
  | Except.ok (es, r) => Except.ok (es, r.remaining)

/-- The two-byte obfuscation key of the version-2 fixture. -/
def c1Key : List UInt8 := [0xAA, 0x55]

/-- The on-disk (obfuscated) bytes of the `num_tx` field of the version-2
fixture: the ciphertext the code produces for a count of zero, whose cipher
offsets start at the absolute file offset 11 (after 8 version bytes, 1 key
length byte and 2 key bytes). -/
def c1Body : List UInt8 := xor_buffer (toLEBytes 8 0) c1Key 11

/-- The full version-2 fixture file: version 2, key length 2, the key, and
the obfuscated zero count. -/
def c1File : List UInt8 := toLEBytes 8 2 ++ UInt8.ofNat c1Key.length :: (c1Key ++ c1Body)

/-- The snapshot the decoder returns for the version-2 fixture. -/
def c1Mempool : Mempool Nat :=
  { header := { version := 2, num_tx := 0 }, xor_key := some c1Key,
    entries := [], map_deltas := [] }

/-- A concrete well-formed entry: the one-byte transaction `0x01` with
timestamp 5 and fee delta 0. -/
def c2Spec : EntrySpec Nat :=
  { txBytes := [0x01], tx := 7, tsBytes := toLEBytes 8 5, fdBytes := toLEBytes 8 0 }

/-! ### Basic cipher lemmas -/

theorem uint8_xor_cancel (a b : UInt8) : a ^^^ b ^^^ b = a := by
  refine UInt8.ext ?_
  show (a.toNat ^^^ b.toNat) ^^^ b.toNat = a.toNat
  rw [Nat.xor_assoc, Nat.xor_self, Nat.xor_zero]

theorem length_xorLoop (key data : List UInt8) (j : Nat) :
    (xorLoop key data j).length = data.length := by
  induction data generalizing j with
  | nil => rfl
  | cons b rest ih => simp [xorLoop, ih]

theorem length_xor_buffer (data key : List UInt8) (p : Nat) :
    (xor_buffer data key p).length = data.length := by
  unfold xor_buffer
  split
  · rfl
  · exact length_xorLoop key data _

theorem xorLoop_xorLoop (key data : List UInt8) (j : Nat) :
    xorLoop key (xorLoop key data j) j = data := by
  induction data generalizing j with
  | nil => rfl
  | cons b rest ih => simp [xorLoop, uint8_xor_cancel, ih]

theorem xorLoop_getD (key : List UInt8) (data : List UInt8) (j i : Nat)
    (hj : j < key.length) (hi : i < data.length) :
    (xorLoop key data j).getD i 0 =
      data.getD i 0 ^^^ key.getD ((j + i) % key.length) 0 := by
  induction data generalizing j i with
  | nil => exact absurd hi (Nat.not_lt_zero i)
  | cons b rest ih =>
    cases i with
    | zero =>
      simp [xorLoop, Nat.mod_eq_of_lt hj]
    | succ i =>
      have hstep : (if j + 1 = key.length then 0 else j + 1) = (j + 1) % key.length := by
        by_cases h : j + 1 = key.length
        · rw [if_pos h, h, Nat.mod_self]
        · rw [if_neg h, Nat.mod_eq_of_lt (by omega)]
      have hlt : (j + 1) % key.length < key.length := Nat.mod_lt _ (by omega)
      have hrec := ih ((j + 1) % key.length) i hlt (by simpa using hi)
      have harith : ((j + 1) % key.length + i) % key.length = (j + (i + 1)) % key.length := by
        rw [Nat.mod_add_mod]
        congr 1
        omega
      simp only [xorLoop, List.getD_cons_succ, hstep]
      rw [hrec, harith]

theorem xor_buffer_getD (data key : List UInt8) (p i : Nat)
    (hk : key ≠ []) (hi : i < data.length) :
    (xor_buffer data key p).getD i 0 =
      data.getD i 0 ^^^ key.getD ((p + i) % key.length) 0 := by
  have hkl : 0 < key.length := List.length_pos.mpr hk
  unfold xor_buffer
  rw [if_neg (by simpa [List.isEmpty_iff] using hk)]
  rw [xorLoop_getD key data _ i (Nat.mod_lt _ hkl) hi]
  congr 2
  rw [Nat.mod_add_mod]

theorem xorLoop_append (key d1 d2 : List UInt8) (j : Nat) (hj : j < key.length) :
    xorLoop key (d1 ++ d2) j =
      xorLoop key d1 j ++ xorLoop key d2 ((j + d1.length) % key.length) := by
  induction d1 generalizing j with
  | nil => simp [xorLoop, Nat.mod_eq_of_lt hj]
  | cons b rest ih =>
    have hstep : (if j + 1 = key.length then 0 else j + 1) = (j + 1) % key.length := by
      by_cases h : j + 1 = key.length
      · rw [if_pos h, h, Nat.mod_self]
      · rw [if_neg h, Nat.mod_eq_of_lt (by omega)]
    have hlt : (j + 1) % key.length < key.length := Nat.mod_lt _ (by omega)
    have harith : ((j + 1) % key.length + rest.length) % key.length
        = (j + (rest.length + 1)) % key.length := by
      rw [Nat.mod_add_mod]
      congr 1
      omega
    simp only [List.cons_append, xorLoop, hstep, List.length_cons, List.append_eq]
    rw [ih _ hlt, harith]

theorem xor_buffer_append (d1 d2 key : List UInt8) (p : Nat) :
    xor_buffer (d1 ++ d2) key p =
      xor_buffer d1 key p ++ xor_buffer d2 key (p + d1.length) := by
  unfold xor_buffer
  by_cases hk : key.isEmpty
  · simp [hk]
  · have hkl : 0 < key.length := by
      cases key with
      | nil => simp [List.isEmpty] at hk
      | cons a l => simp
    rw [if_neg hk, if_neg hk, if_neg hk,
      xorLoop_append key d1 d2 _ (Nat.mod_lt _ hkl)]
    congr 2
    exact Nat.mod_add_mod p key.length d1.length

/-! ### Little-endian integer lemmas -/

theorem length_toLEBytes (k v : Nat) : (toLEBytes k v).length = k := by
  induction k generalizing v with
  | zero => rfl
  | succ k ih => simp [toLEBytes, ih]

theorem u64_from_le_toLEBytes (k v : Nat) :
    u64_from_le (toLEBytes k v) = v % 256 ^ k := by
  induction k generalizing v with
  | zero => simp [toLEBytes, u64_from_le, Nat.mod_one]
  | succ k ih =>
    show u64_from_le (toLEBytes k (v / 256)) * 256 + (UInt8.ofNat (v % 256)).toNat
        = v % 256 ^ (k + 1)
    rw [ih]
    have h1 : (UInt8.ofNat (v % 256)).toNat = v % 256 % 256 := rfl
    have h2 : (256 : Nat) ^ (k + 1) = 256 * 256 ^ k := by
      rw [Nat.pow_succ]
      omega
    rw [h1, h2, Nat.mod_mul]
    omega

theorem u64_from_le_lt (bs : List UInt8) : u64_from_le bs < 256 ^ bs.length := by
  induction bs with
  | nil => simp [u64_from_le]
  | cons b rest ih =>
    show u64_from_le rest * 256 + b.toNat < 256 ^ (rest.length + 1)
    have hb : b.toNat < 256 := b.1.isLt
    rw [Nat.pow_succ]
    omega

/-! ### XorReader lemmas -/

theorem xor_buffer_nil (key : List UInt8) (p : Nat) : xor_buffer [] key p = [] := by
  unfold xor_buffer
  split <;> rfl

theorem advance_zero (r : XorReader) : r.advance 0 = r := by
  unfold XorReader.advance
  cases r with
  | mk fd c k pos => cases pos <;> rfl

theorem advance_advance (r : XorReader) (a b : Nat) :
    (r.advance a).advance b = r.advance (a + b) := by
  unfold XorReader.advance
  cases r with
  | mk fd c k pos =>
    cases pos with
    | none => simp [Nat.add_assoc]
    | some p => simp [Nat.add_assoc]

theorem read_exact_of_pos (r : XorReader) (n p : Nat) (hp : r.position = some p) :
    r.read_exact n =
      if n ≤ r.fileData.length - r.cursor then
        Except.ok (xor_buffer ((r.fileData.drop r.cursor).take n) r.xor_key p, r.advance n)
      else Except.error IOError.eof := by
  unfold XorReader.read_exact
  split
  · show (if r.xor_key.isEmpty then _ else _) = _
    by_cases hk : r.xor_key.isEmpty
    · rw [if_pos hk]
      unfold xor_buffer
      rw [if_pos hk]
    · rw [if_neg hk, hp]
  · rfl

theorem read_exact_position_none (r : XorReader) (n : Nat)
    (hk : r.xor_key ≠ []) (hp : r.position = none)
    (hn : n ≤ r.fileData.length - r.cursor) :
    r.read_exact n = Except.error IOError.positionUnknown := by
  unfold XorReader.read_exact
  rw [if_pos hn]
  show (if r.xor_key.isEmpty then _ else _) = _
  rw [if_neg (by simpa [List.isEmpty_iff] using hk), hp]

theorem getD_take (l : List UInt8) (i n : Nat) (h : i < n) :
    (l.take n).getD i 0 = l.getD i 0 := by
  simp [List.getD_eq_getElem?_getD, List.getElem?_take, h]

theorem getD_drop (l : List UInt8) (c i : Nat) :
    (l.drop c).getD i 0 = l.getD (c + i) 0 := by
  simp [List.getD_eq_getElem?_getD, List.getElem?_drop]

theorem length_take_drop (fd : List UInt8) (c n : Nat) (h : n ≤ fd.length - c) :
    ((fd.drop c).take n).length = n := by
  rw [List.length_take, List.length_drop]
  omega

theorem read_exact_add (r : XorReader) (a b p : Nat) (hp : r.position = some p) :
    r.read_exact (a + b) =
      match r.read_exact a with
      | Except.error e => Except.error e
      | Except.ok (b1, r1) =>
        match r1.read_exact b with
        | Except.error e => Except.error e
        | Except.ok (b2, r2) => Except.ok (b1 ++ b2, r2) := by
  have hp1 : (r.advance a).position = some (p + a) := by
    simp [XorReader.advance, hp]
  rw [read_exact_of_pos r (a + b) p hp, read_exact_of_pos r a p hp]
  by_cases hA : a ≤ r.fileData.length - r.cursor
  · rw [if_pos hA]
    dsimp only
    rw [read_exact_of_pos (r.advance a) b (p + a) hp1]
    have hcur : (r.advance a).cursor = r.cursor + a := rfl
    have hfd : (r.advance a).fileData = r.fileData := rfl
    have hkey : (r.advance a).xor_key = r.xor_key := rfl
    by_cases hB : b ≤ r.fileData.length - (r.cursor + a)
    · rw [if_pos (by omega), if_pos (by rw [hcur, hfd]; omega)]
      have hsplit : (r.fileData.drop r.cursor).take (a + b)
          = (r.fileData.drop r.cursor).take a
            ++ (r.fileData.drop (r.cursor + a)).take b := by
        rw [List.take_add, List.drop_drop]
      have hlen : ((r.fileData.drop r.cursor).take a).length = a :=
        length_take_drop _ _ _ hA
      rw [hsplit, xor_buffer_append, hlen, hcur, hfd, hkey, advance_advance]
    · rw [if_neg (by omega), if_neg (by rw [hcur, hfd]; omega)]
  · rw [if_neg (by omega), if_neg hA]

theorem readExactSeq_sum (ns : List Nat) (r : XorReader) (p : Nat)
    (hp : r.position = some p) :
    readExactSeq r ns = r.read_exact ns.sum := by
  induction ns generalizing r p with
  | nil =>
    rw [readExactSeq, List.sum_nil, read_exact_of_pos r 0 p hp, if_pos (Nat.zero_le _)]
    simp [xor_buffer_nil, advance_zero]
  | cons n ns ih =>
    rw [List.sum_cons, read_exact_add r n ns.sum p hp, readExactSeq]
    cases hres : r.read_exact n with
    | error e => rfl
    | ok pr =>
      obtain ⟨b1, r1⟩ := pr
      have hr1 : r1 = r.advance n := by
        rw [read_exact_of_pos r n p hp] at hres
        by_cases hA : n ≤ r.fileData.length - r.cursor
        · rw [if_pos hA] at hres
          simp only [Except.ok.injEq, Prod.mk.injEq] at hres
          exact hres.2.symm
        · rw [if_neg hA] at hres
          exact absurd hres (by simp)
      have hpos1 : r1.position = some (p + n) := by
        rw [hr1]
        simp [XorReader.advance, hp]
      dsimp only
      rw [ih r1 (p + n) hpos1]

/-! ### Claim theorems (stream level) -/

/-- C6: applying `xor_buffer` with the same key and offset twice in
succession reproduces the original buffer, for every buffer, key (including
the empty key) and offset: the positional XOR cipher is self-inverse. -/
theorem c6_xor_self_inverse (data key : List UInt8) (off : Nat) :
    xor_buffer (xor_buffer data key off) key off = data := by
  unfold xor_buffer
  by_cases hk : key.isEmpty
  · rw [if_pos hk, if_pos hk]
  · rw [if_neg hk, if_neg hk, xorLoop_xorLoop]

/-- C5: a `XorReader` with a non-empty key whose tracked position is unknown
fails `read_exact` with the position-unknown error instead of returning
bytes (here the underlying source has the requested bytes available, so the
only failure is the lost position). -/
theorem c5_position_unknown (r : XorReader) (n : Nat)
    (hk : r.xor_key ≠ []) (hp : r.position = none)
    (hn : n ≤ r.fileData.length - r.cursor) :
    r.read_exact n = Except.error IOError.positionUnknown :=
  read_exact_position_none r n hk hp hn

/-- Witness for C5 at a concrete reader: two bytes are available, the key is
non-empty, the position is unknown, and `read_exact` fails with the
position-unknown error. -/
theorem c5_witness :
    ({ fileData := [0x01, 0x02], cursor := 0, xor_key := [0xAA],
       position := none } : XorReader).read_exact 2
      = Except.error IOError.positionUnknown :=
  c5_position_unknown
    { fileData := [0x01, 0x02], cursor := 0, xor_key := [0xAA], position := none }
    2 (by decide) rfl (by decide)

/-- C9: `XorReader::new` always succeeds, for every underlying source state,
stream-position outcome and key; when the source failed to report its
position, the position is recorded as unknown and the failure is deferred to
the first read that must apply the cipher. -/
theorem c9_new_total (fileData : List UInt8) (cursor : Nat)
    (spos : Except IOError Nat) (key : List UInt8) :
    XorReader.new fileData cursor spos key =
      Except.ok { fileData := fileData, cursor := cursor, xor_key := key,
                  position := spos.toOption } ∧
    (∀ (e : IOError) (r : XorReader) (n : Nat),
      XorReader.new fileData cursor (Except.error e) key = Except.ok r →
      key ≠ [] → n ≤ fileData.length - cursor →
      r.position = none ∧ r.read_exact n = Except.error IOError.positionUnknown) := by
  constructor
  · rfl
  · intro e r n hnew hk hn
    have hr : r = { fileData := fileData, cursor := cursor, xor_key := key,
                    position := none } := by
      simpa [XorReader.new, Except.toOption] using hnew.symm
    subst hr
    exact ⟨rfl, read_exact_position_none _ n hk rfl hn⟩

/-- Witness for C9 at a concrete reader: construction with a failed
stream-position report still succeeds, records the position as unknown, and
the first ciphered read fails with the position-unknown error. -/
theorem c9_witness :
    (XorReader.new [0x07] 0 (Except.error IOError.eof) [0xAA] =
      Except.ok { fileData := [0x07], cursor := 0, xor_key := [0xAA],
                  position := none }) ∧
    (({ fileData := [0x07], cursor := 0, xor_key := [0xAA],
        position := none } : XorReader).position = none ∧
      ({ fileData := [0x07], cursor := 0, xor_key := [0xAA],
         position := none } : XorReader).read_exact 1 =
        Except.error IOError.positionUnknown) :=
  ⟨(c9_new_total [0x07] 0 (Except.error IOError.eof) [0xAA]).1,
   (c9_new_total [0x07] 0 (Except.error IOError.eof) [0xAA]).2 IOError.eof
     { fileData := [0x07], cursor := 0, xor_key := [0xAA], position := none }
     1 rfl (by decide) (by decide)⟩

/-- C10: `XorReader::read` returns zero bytes successfully when the
underlying source is at end of stream, whatever the key and tracked
position; and a position-unknown failure from `read` can only occur when the
underlying source actually yielded at least one byte. -/
theorem c10_read_eof_ok (r : XorReader) (n : Nat)
    (h : r.fileData.length ≤ r.cursor) :
    r.read n = Except.ok ([], r) ∧
    (∀ (s : XorReader) (m : Nat), s.read m = Except.error IOError.positionUnknown →
      0 < min m (s.fileData.length - s.cursor)) := by
  constructor
  · have h0 : r.fileData.length - r.cursor = 0 := by omega
    unfold XorReader.read
    rw [h0, List.drop_eq_nil_of_le h]
    simp [advance_zero]
  · intro s m hread
    by_cases hc : 0 < min m (s.fileData.length - s.cursor) ∧ ¬ s.xor_key.isEmpty
    · exact hc.1
    · rw [XorReader.read] at hread
      rw [if_neg hc] at hread
      exact absurd hread (by simp)

/-- Witness for C10 at concrete readers: at end of stream `read` returns
zero bytes even under a non-empty key with unknown position, and a concrete
position-unknown failure exhibits a positive byte count available. -/
theorem c10_witness :
    (({ fileData := [0x01], cursor := 1, xor_key := [0xAA],
        position := none } : XorReader).read 5 =
      Except.ok ([], { fileData := [0x01], cursor := 1, xor_key := [0xAA],
                       position := none })) ∧
    0 < min 1 (([0x01] : List UInt8).length - 0) :=
  ⟨(c10_read_eof_ok { fileData := [0x01], cursor := 1, xor_key := [0xAA],
                      position := none } 5 (by decide)).1,
   (c10_read_eof_ok { fileData := [0x01], cursor := 1, xor_key := [0xAA],
                      position := none } 5 (by decide)).2
     { fileData := [0x01], cursor := 0, xor_key := [0xAA], position := none }
     1 rfl⟩

/-- C7: with a non-empty key and tracked position `p`, splitting a byte
sequence into any list of consecutive `read_exact` calls yields exactly the
bytes of the single combined `read_exact`, and each deciphered byte at
relative index `i` is the underlying byte XORed with
`key[(p + i) mod key.length]` — the cipher offset is the tracked absolute
position, not a per-call offset. -/
theorem c7_split_reads (r : XorReader) (ns : List Nat) (p : Nat)
    (hk : r.xor_key ≠ []) (hp : r.position = some p) :
    readExactSeq r ns = r.read_exact ns.sum ∧
    (∀ (buf : List UInt8) (s : XorReader) (i : Nat),
      r.read_exact ns.sum = Except.ok (buf, s) → i < ns.sum →
      buf.getD i 0 = r.fileData.getD (r.cursor + i) 0
        ^^^ r.xor_key.getD ((p + i) % r.xor_key.length) 0) := by
  refine ⟨readExactSeq_sum ns r p hp, ?_⟩
  intro buf s i hok hi
  rw [read_exact_of_pos r ns.sum p hp] at hok
  by_cases hA : ns.sum ≤ r.fileData.length - r.cursor
  · rw [if_pos hA] at hok
    simp only [Except.ok.injEq, Prod.mk.injEq] at hok
    rw [← hok.1]
    rw [xor_buffer_getD _ _ _ _ hk (by rw [length_take_drop _ _ _ hA]; exact hi)]
    rw [getD_take _ _ _ hi, getD_drop]
  · rw [if_neg hA] at hok
    exact absurd hok (by simp)

/-- Witness for C7 at a concrete reader and split: reading 3 bytes as one
call equals reading them as calls of 1 then 2 bytes, and the first
deciphered byte obeys the absolute-offset cipher rule. -/
theorem c7_witness :
    (readExactSeq
        { fileData := [0x10, 0x20, 0x30], cursor := 0, xor_key := [0x0F],
          position := some 0 } [1, 2] =
      XorReader.read_exact
        { fileData := [0x10, 0x20, 0x30], cursor := 0, xor_key := [0x0F],
          position := some 0 } (List.sum [1, 2])) ∧
    (([0x1F, 0x2F, 0x3F] : List UInt8).getD 0 0 =
      ([0x10, 0x20, 0x30] : List UInt8).getD (0 + 0) 0
        ^^^ ([0x0F] : List UInt8).getD ((0 + 0) % ([0x0F] : List UInt8).length) 0) :=
  ⟨(c7_split_reads
      { fileData := [0x10, 0x20, 0x30], cursor := 0, xor_key := [0x0F],
        position := some 0 } [1, 2] 0 (by decide) rfl).1,
   (c7_split_reads
      { fileData := [0x10, 0x20, 0x30], cursor := 0, xor_key := [0x0F],
        position := some 0 } [1, 2] 0 (by decide) rfl).2
     [0x1F, 0x2F, 0x3F]
     { fileData := [0x10, 0x20, 0x30], cursor := 3, xor_key := [0x0F],
       position := some 3 } 0 rfl (by decide)⟩

/-! ### Empty-key readers are plain readers -/

theorem remaining_advance (r : XorReader) (n : Nat) :
    (r.advance n).remaining = r.remaining.drop n := by
  unfold XorReader.remaining XorReader.advance
  rw [List.drop_drop]

theorem length_remaining (r : XorReader) :
    r.remaining.length = r.fileData.length - r.cursor := by
  unfold XorReader.remaining
  rw [List.length_drop]

theorem read_exact_empty_key (r : XorReader) (n : Nat) (hk : r.xor_key = []) :
    r.read_exact n =
      if n ≤ r.fileData.length - r.cursor then
        Except.ok (r.remaining.take n, r.advance n)
      else Except.error IOError.eof := by
  unfold XorReader.read_exact
  split
  · show (if r.xor_key.isEmpty then _ else _) = _
    rw [if_pos (by simp [hk])]
    rfl
  · rfl

theorem decipherView_empty_key (r : XorReader) (hk : r.xor_key = []) :
    decipherView r = some r.remaining := by
  unfold decipherView
  rw [if_pos (by simp [hk])]

theorem read_i64_empty_key (r : XorReader) (hk : r.xor_key = []) :
    r.read_i64_le =
      if 8 ≤ r.fileData.length - r.cursor then
        Except.ok (i64_from_le (r.remaining.take 8), r.advance 8)
      else Except.error IOError.eof := by
  by_cases hc : 8 ≤ r.fileData.length - r.cursor
  · rw [XorReader.read_i64_le, read_exact_empty_key r 8 hk, if_pos hc, if_pos hc]
  · rw [XorReader.read_i64_le, read_exact_empty_key r 8 hk, if_neg hc, if_neg hc]

theorem read_exact_key (r : XorReader) (n : Nat) (buf : List UInt8) (s : XorReader)
    (h : r.read_exact n = Except.ok (buf, s)) : s.xor_key = r.xor_key := by
  unfold XorReader.read_exact at h
  by_cases hc : n ≤ r.fileData.length - r.cursor
  · rw [if_pos hc] at h
    revert h
    show (if r.xor_key.isEmpty then _ else _) = _ → _
    by_cases hk : r.xor_key.isEmpty
    · rw [if_pos hk]
      intro h
      simp only [Except.ok.injEq, Prod.mk.injEq] at h
      rw [← h.2]
      rfl
    · rw [if_neg hk]
      cases hpos : r.position with
      | some p =>
        intro h
        simp only [Except.ok.injEq, Prod.mk.injEq] at h
        rw [← h.2]
        rfl
      | none =>
        intro h
        exact absurd h (by simp)
  · rw [if_neg hc] at h
    exact absurd h (by simp)

theorem read_i64_key (r : XorReader) (v : Int) (s : XorReader)
    (h : r.read_i64_le = Except.ok (v, s)) : s.xor_key = r.xor_key := by
  unfold XorReader.read_i64_le at h
  cases hre : r.read_exact 8 with
  | error e =>
    rw [hre] at h
    exact absurd h (by simp)
  | ok pr =>
    obtain ⟨buf, s1⟩ := pr
    rw [hre] at h
    simp only [Except.ok.injEq, Prod.mk.injEq] at h
    rw [← h.2]
    exact read_exact_key r 8 buf s1 hre

theorem read_mempool_entry_key {τ : Type} (dec : TxDecoder τ) (r : XorReader)
    (en : MempoolEntry τ) (s : XorReader)
    (h : read_mempool_entry dec r = Except.ok (en, s)) : s.xor_key = r.xor_key := by
  unfold read_mempool_entry at h
  cases hv : decipherView r with
  | none =>
    rw [hv] at h
    exact absurd h (by simp)
  | some view =>
    rw [hv] at h
    dsimp only at h
    cases hd : dec view with
    | none =>
      rw [hd] at h
      exact absurd h (by simp)
    | some pr =>
      obtain ⟨tx, n⟩ := pr
      rw [hd] at h
      dsimp only at h
      cases h1 : (r.advance (min n view.length)).read_i64_le with
      | error e =>
        rw [h1] at h
        exact absurd h (by simp)
      | ok pr1 =>
        obtain ⟨ts, r2⟩ := pr1
        rw [h1] at h
        dsimp only at h
        cases h2 : r2.read_i64_le with
        | error e =>
          rw [h2] at h
          exact absurd h (by simp)
        | ok pr2 =>
          obtain ⟨fd, r3⟩ := pr2
          rw [h2] at h
          simp only [Except.ok.injEq, Prod.mk.injEq] at h
          rw [← h.2]
          calc r3.xor_key = r2.xor_key := read_i64_key r2 fd r3 h2
            _ = (r.advance (min n view.length)).xor_key := read_i64_key _ ts r2 h1
            _ = r.xor_key := rfl

theorem entry_empty_key {τ : Type} (dec : TxDecoder τ) (r : XorReader)
    (hk : r.xor_key = []) :
    stripEntryResult (read_mempool_entry dec r) = entryPure dec r.remaining := by
  unfold read_mempool_entry entryPure
  rw [decipherView_empty_key r hk]
  dsimp only
  cases hd : dec r.remaining with
  | none => rfl
  | some pr =>
    obtain ⟨tx, n⟩ := pr
    dsimp only
    rw [read_i64_empty_key (r.advance (min n r.remaining.length)) hk]
    have hcond1 : (r.advance (min n r.remaining.length)).fileData.length
        - (r.advance (min n r.remaining.length)).cursor
        = (r.remaining.drop (min n r.remaining.length)).length := by
      rw [← length_remaining, remaining_advance]
    rw [hcond1, remaining_advance]
    by_cases h8 : 8 ≤ (r.remaining.drop (min n r.remaining.length)).length
    · rw [if_pos h8, if_pos h8]
      dsimp only
      rw [advance_advance, read_i64_empty_key (r.advance (min n r.remaining.length + 8)) hk]
      have hcond2 : (r.advance (min n r.remaining.length + 8)).fileData.length
          - (r.advance (min n r.remaining.length + 8)).cursor
          = ((r.remaining.drop (min n r.remaining.length)).drop 8).length := by
        rw [← length_remaining, remaining_advance, ← List.drop_drop]
      rw [hcond2, remaining_advance, ← List.drop_drop]
      by_cases h8b : 8 ≤ ((r.remaining.drop (min n r.remaining.length)).drop 8).length
      · rw [if_pos h8b, if_pos h8b]
        dsimp only [stripEntryResult]
        rw [remaining_advance, remaining_advance, ← List.drop_drop]
      · rw [if_neg h8b, if_neg h8b]
        rfl
    · rw [if_neg h8, if_neg h8]
      rfl

theorem entries_empty_key {τ : Type} (dec : TxDecoder τ) (idx k : Nat) (r : XorReader)
    (hk : r.xor_key = []) :
    stripEntriesResult (readEntries dec idx r k) = entriesPure dec idx r.remaining k := by
  induction k generalizing idx r with
  | zero => rfl
  | succ k ih =>
    simp only [readEntries, entriesPure]
    have hentry := entry_empty_key dec r hk
    cases he : read_mempool_entry dec r with
    | error e =>
      rw [he] at hentry
      rw [← hentry]
      rfl
    | ok pr =>
      obtain ⟨en, r1⟩ := pr
      rw [he] at hentry
      rw [← hentry]
      dsimp only [stripEntryResult]
      have hk1 : r1.xor_key = [] := by
        rw [read_mempool_entry_key dec r en r1 he]
        exact hk
      have hrec := ih (idx + 1) r1 hk1
      rw [← hrec]
      cases hE : readEntries dec (idx + 1) r1 k with
      | error e2 => rfl
      | ok pr2 => rfl

/-! ### Header-phase computation lemmas -/

theorem plainReadExact_append (pre mid post : List UInt8) :
    plainReadExact (pre ++ (mid ++ post)) pre.length mid.length
      = Except.ok (mid, pre.length + mid.length) := by
  unfold plainReadExact
  have hlen : (pre ++ (mid ++ post)).length = pre.length + (mid.length + post.length) := by
    simp [List.length_append]
  rw [if_pos (by omega), List.drop_left, List.take_left]

theorem read_u64_empty_key (r : XorReader) (hk : r.xor_key = []) :
    r.read_u64_le =
      if 8 ≤ r.fileData.length - r.cursor then
        Except.ok (u64_from_le (r.remaining.take 8), r.advance 8)
      else Except.error IOError.eof := by
  by_cases hc : 8 ≤ r.fileData.length - r.cursor
  · rw [XorReader.read_u64_le, read_exact_empty_key r 8 hk, if_pos hc, if_pos hc]
  · rw [XorReader.read_u64_le, read_exact_empty_key r 8 hk, if_neg hc, if_neg hc]

theorem read_mempool_non_v2 {τ : Type} (dec : TxDecoder τ) (v : Nat) (body : List UInt8)
    (hv : v < 2 ^ 64) (hv2 : v ≠ 2) :
    read_mempool dec (toLEBytes 8 v ++ body) =
      if 8 ≤ body.length then
        match entriesPure dec 0 (body.drop 8) (u64_from_le (body.take 8)) with
        | Except.error e => Except.error e
        | Except.ok (es, _) =>
          Except.ok { header := { version := v, num_tx := u64_from_le (body.take 8) },
                      xor_key := none, entries := es, map_deltas := [] }
      else Except.error (MempoolError.headerRead IOError.eof) := by
  have hplain0 : plainReadExact (toLEBytes 8 v ++ body) 0 8
      = Except.ok (toLEBytes 8 v, 8) := by
    have h := plainReadExact_append [] (toLEBytes 8 v) body
    simpa [length_toLEBytes] using h
  have hver : u64_from_le (toLEBytes 8 v) = v := by
    rw [u64_from_le_toLEBytes]
    have h8 : (256 : Nat) ^ 8 = 2 ^ 64 := by norm_num
    rw [h8]
    exact Nat.mod_eq_of_lt hv
  have hdropfile : (toLEBytes 8 v ++ body).drop 8 = body := by
    have h := List.drop_left (toLEBytes 8 v) body
    rwa [length_toLEBytes] at h
  unfold read_mempool
  rw [hplain0]
  dsimp only
  rw [hver, if_neg hv2]
  dsimp only [XorReader.new, Option.getD, Except.toOption]
  rw [read_u64_empty_key _ rfl]
  have hcond : (⟨toLEBytes 8 v ++ body, 8, [], some 8⟩ : XorReader).fileData.length - 8
      = body.length := by
    show (toLEBytes 8 v ++ body).length - 8 = body.length
    simp [List.length_append, length_toLEBytes]
  have hrem : (⟨toLEBytes 8 v ++ body, 8, [], some 8⟩ : XorReader).remaining = body :=
    hdropfile
  rw [hcond, hrem]
  by_cases h8 : 8 ≤ body.length
  · rw [if_pos h8, if_pos h8]
    dsimp only
    have hbis := entries_empty_key dec 0 (u64_from_le (body.take 8))
      ((⟨toLEBytes 8 v ++ body, 8, [], some 8⟩ : XorReader).advance 8) rfl
    rw [remaining_advance, hrem] at hbis
    cases hE : readEntries dec 0
        ((⟨toLEBytes 8 v ++ body, 8, [], some 8⟩ : XorReader).advance 8)
        (u64_from_le (body.take 8)) with
    | error e =>
      rw [hE] at hbis
      rw [← hbis]
      rfl
    | ok pr =>
      obtain ⟨es, rr⟩ := pr
      rw [hE] at hbis
      rw [← hbis]
      rfl
  · rw [if_neg h8, if_neg h8]

/-! ### Entry encoding lemmas -/

theorem encodeEntries_cons {τ : Type} (e : EntrySpec τ) (es : List (EntrySpec τ)) :
    encodeEntries (e :: es) = encodeEntry e ++ encodeEntries es := by
  simp [encodeEntries]

theorem entryPure_encode {τ : Type} (dec : TxDecoder τ) (e : EntrySpec τ)
    (suffix : List UInt8) (hts : e.tsBytes.length = 8) (hfd : e.fdBytes.length = 8)
    (hdec : ∀ s : List UInt8, dec (e.txBytes ++ s) = some (e.tx, e.txBytes.length)) :
    entryPure dec (encodeEntry e ++ suffix) = Except.ok (specEntry e, suffix) := by
  unfold entryPure encodeEntry
  have hassoc : e.txBytes ++ e.tsBytes ++ e.fdBytes ++ suffix
      = e.txBytes ++ (e.tsBytes ++ (e.fdBytes ++ suffix)) := by
    simp [List.append_assoc]
  rw [hassoc, hdec]
  dsimp only
  have hmin : min e.txBytes.length
      (e.txBytes ++ (e.tsBytes ++ (e.fdBytes ++ suffix))).length = e.txBytes.length := by
    refine Nat.min_eq_left ?_
    simp [List.length_append]
  rw [hmin, List.drop_left]
  have htake1 : (e.tsBytes ++ (e.fdBytes ++ suffix)).take 8 = e.tsBytes := by
    rw [← hts]
    exact List.take_left _ _
  have hdrop1 : (e.tsBytes ++ (e.fdBytes ++ suffix)).drop 8 = e.fdBytes ++ suffix := by
    rw [← hts]
    exact List.drop_left _ _
  rw [if_pos (by simp [List.length_append, hts]), htake1, hdrop1]
  have htake2 : (e.fdBytes ++ suffix).take 8 = e.fdBytes := by
    rw [← hfd]
    exact List.take_left _ _
  have hdrop2 : (e.fdBytes ++ suffix).drop 8 = suffix := by
    rw [← hfd]
    exact List.drop_left _ _
  rw [if_pos (by simp [List.length_append, hfd]), htake2, hdrop2]
  rfl

theorem entriesPure_append {τ : Type} (dec : TxDecoder τ) (specs : List (EntrySpec τ))
    (idx m : Nat) (tail : List UInt8)
    (hwf : WellFormedSpecs specs) (hdec : DecodesSpecs dec specs) :
    entriesPure dec idx (encodeEntries specs ++ tail) (specs.length + m)
      = match entriesPure dec (idx + specs.length) tail m with
        | Except.error er => Except.error er
        | Except.ok (es, s) => Except.ok (specs.map specEntry ++ es, s) := by
  induction specs generalizing idx with
  | nil =>
    show entriesPure dec idx (encodeEntries [] ++ tail) (0 + m) = _
    have h0 : encodeEntries ([] : List (EntrySpec τ)) ++ tail = tail := by
      simp [encodeEntries]
    have hidx0 : idx + ([] : List (EntrySpec τ)).length = idx := rfl
    rw [h0, Nat.zero_add, hidx0]
    cases hX : entriesPure dec idx tail m with
    | error e => rfl
    | ok pr =>
      obtain ⟨es, s⟩ := pr
      simp
  | cons e es ih =>
    have hlen : (e :: es).length + m = (es.length + m) + 1 := by
      simp [List.length_cons]
      omega
    rw [hlen, encodeEntries_cons, List.append_assoc]
    show (match entryPure dec (encodeEntry e ++ (encodeEntries es ++ tail)) with
          | Except.error er => Except.error (MempoolError.entryRead idx er)
          | Except.ok (en, s1) =>
            match entriesPure dec (idx + 1) s1 (es.length + m) with
            | Except.error er => Except.error er
            | Except.ok (es2, s2) => Except.ok (en :: es2, s2)) = _
    rw [entryPure_encode dec e (encodeEntries es ++ tail)
      (hwf e (List.mem_cons_self e es)).1 (hwf e (List.mem_cons_self e es)).2
      (fun s => hdec e (List.mem_cons_self e es) s)]
    dsimp only
    rw [ih (idx + 1) (fun x hx => hwf x (List.mem_cons_of_mem e hx))
      (fun x hx => hdec x (List.mem_cons_of_mem e hx))]
    have hidx : idx + 1 + es.length = idx + (e :: es).length := by
      simp [List.length_cons]
      omega
    rw [hidx]
    cases entriesPure dec (idx + (e :: es).length) tail m with
    | error er => rfl
    | ok pr =>
      obtain ⟨es2, s2⟩ := pr
      simp

/-! ### Claim theorems (decode level) -/

theorem take_toLE_head (N : Nat) (z : List UInt8) :
    (toLEBytes 8 N ++ z).take 8 = toLEBytes 8 N := by
  have h := List.take_left (toLEBytes 8 N) z
  rwa [length_toLEBytes] at h

theorem drop_toLE_tail (N : Nat) (z : List UInt8) :
    (toLEBytes 8 N ++ z).drop 8 = z := by
  have h := List.drop_left (toLEBytes 8 N) z
  rwa [length_toLEBytes] at h

theorem u64_round (N : Nat) (hN : N < 2 ^ 64) : u64_from_le (toLEBytes 8 N) = N := by
  rw [u64_from_le_toLEBytes]
  have h8 : (256 : Nat) ^ 8 = 2 ^ 64 := by norm_num
  rw [h8]
  exact Nat.mod_eq_of_lt hN

/-- C2: a non-obfuscated dump (version ≠ 2) whose count field declares `N`
and which contains `N` well-formed entries decodes to `Ok` with exactly
those `N` entries in on-disk order (the entry list is the image of the
on-disk sequence under `specEntry`, order preserved), and the returned
header field `num_tx` equals `N`. -/
theorem c2_wellformed_decode {τ : Type} (dec : TxDecoder τ) (v N : Nat)
    (specs : List (EntrySpec τ)) (rest : List UInt8)
    (hv : v < 2 ^ 64) (hv2 : v ≠ 2) (hN : N < 2 ^ 64) (hlen : specs.length = N)
    (hwf : WellFormedSpecs specs) (hdec : DecodesSpecs dec specs) :
    read_mempool dec (toLEBytes 8 v ++ (toLEBytes 8 N ++ (encodeEntries specs ++ rest)))
      = Except.ok { header := { version := v, num_tx := N }, xor_key := none,
                    entries := specs.map specEntry, map_deltas := [] } := by
  rw [read_mempool_non_v2 dec v _ hv hv2]
  have hbl : (toLEBytes 8 N ++ (encodeEntries specs ++ rest)).length
      = 8 + (encodeEntries specs ++ rest).length := by
    simp [List.length_append, length_toLEBytes]
  rw [if_pos (by omega), take_toLE_head, drop_toLE_tail, u64_round N hN]
  have hE2 : entriesPure dec 0 (encodeEntries specs ++ rest) N
      = Except.ok (specs.map specEntry, rest) := by
    have h := entriesPure_append dec specs 0 0 rest hwf hdec
    rw [Nat.add_zero, hlen] at h
    simpa [entriesPure] using h
  rw [hE2]

/-- Witness for C2: a version-1 dump declaring one entry and holding the
one-byte transaction `0x01` with timestamp 5 and fee delta 0 decodes to
exactly that entry. -/
theorem c2_witness :
    read_mempool decOne
        (toLEBytes 8 1 ++ (toLEBytes 8 1 ++ (encodeEntries [c2Spec] ++ [])))
      = Except.ok { header := { version := 1, num_tx := 1 }, xor_key := none,
                    entries := [c2Spec].map specEntry, map_deltas := [] } :=
  c2_wellformed_decode decOne 1 1 [c2Spec] [] (by norm_num) (by decide) (by norm_num)
    rfl
    (by
      intro x hx
      rw [List.mem_singleton] at hx
      subst hx
      exact ⟨length_toLEBytes 8 5, length_toLEBytes 8 0⟩)
    (by
      intro x hx s
      rw [List.mem_singleton] at hx
      subst hx
      rfl)

theorem readEntries_fail_at {τ : Type} (dec : TxDecoder τ) (i : Nat) :
    ∀ (idx k : Nat) (r ri : XorReader) (es : List (MempoolEntry τ)) (e : IOError),
      readEntries dec idx r i = Except.ok (es, ri) →
      read_mempool_entry dec ri = Except.error e →
      i < k →
      readEntries dec idx r k = Except.error (MempoolError.entryRead (idx + i) e) := by
  induction i with
  | zero =>
    intro idx k r ri es e hok hfail hik
    have hri : ri = r := by
      simp only [readEntries, Except.ok.injEq, Prod.mk.injEq] at hok
      exact hok.2.symm
    subst hri
    obtain ⟨k1, rfl⟩ : ∃ k1, k = k1 + 1 := ⟨k - 1, by omega⟩
    simp only [readEntries, hfail, Nat.add_zero]
  | succ i ih =>
    intro idx k r ri es e hok hfail hik
    simp only [readEntries] at hok
    cases he : read_mempool_entry dec r with
    | error e1 =>
      rw [he] at hok
      exact absurd hok (by simp)
    | ok pr =>
      obtain ⟨en, r1⟩ := pr
      rw [he] at hok
      dsimp only at hok
      cases hrest : readEntries dec (idx + 1) r1 i with
      | error e2 =>
        rw [hrest] at hok
        exact absurd hok (by simp)
      | ok pr2 =>
        obtain ⟨es2, ri2⟩ := pr2
        rw [hrest] at hok
        simp only [Except.ok.injEq, Prod.mk.injEq] at hok
        obtain ⟨k1, rfl⟩ : ∃ k1, k = k1 + 1 := ⟨k - 1, by omega⟩
        simp only [readEntries, he]
        rw [ih (idx + 1) k1 r1 ri2 es2 e hrest (hok.2 ▸ hfail) (by omega)]
        have : idx + 1 + i = idx + (i + 1) := by omega
        rw [this]

/-- C3: when decoding entry `i` (zero-based) fails, the decoder returns an
`EntryRead` error carrying exactly index `i`, exposes no `Mempool` value,
and reads no further entries: in any entry loop, once the first `i` entries
decode and the next entry fails with cause `e`, the whole loop returns
`EntryRead i e` whatever the declared count beyond `i`; concretely, a
non-obfuscated dump holding `i` well-formed entries followed by bytes on
which entry decoding fails yields exactly that error. -/
theorem c3_entry_failure {τ : Type} (dec : TxDecoder τ) (v N : Nat)
    (specs : List (EntrySpec τ)) (rest : List UInt8) (e : IOError)
    (hv : v < 2 ^ 64) (hv2 : v ≠ 2) (hN : N < 2 ^ 64) (hlt : specs.length < N)
    (hwf : WellFormedSpecs specs) (hdec : DecodesSpecs dec specs)
    (hfail : entryPure dec rest = Except.error e) :
    (∀ (idx i k : Nat) (r ri : XorReader) (es : List (MempoolEntry τ)) (e1 : IOError),
      readEntries dec idx r i = Except.ok (es, ri) →
      read_mempool_entry dec ri = Except.error e1 →
      i < k →
      readEntries dec idx r k = Except.error (MempoolError.entryRead (idx + i) e1)) ∧
    read_mempool dec (toLEBytes 8 v ++ (toLEBytes 8 N ++ (encodeEntries specs ++ rest)))
      = Except.error (MempoolError.entryRead specs.length e) := by
  refine ⟨fun idx i k r ri es e1 h1 h2 h3 =>
    readEntries_fail_at dec i idx k r ri es e1 h1 h2 h3, ?_⟩
  rw [read_mempool_non_v2 dec v _ hv hv2]
  have hbl : (toLEBytes 8 N ++ (encodeEntries specs ++ rest)).length
      = 8 + (encodeEntries specs ++ rest).length := by
    simp [List.length_append, length_toLEBytes]
  rw [if_pos (by omega), take_toLE_head, drop_toLE_tail, u64_round N hN]
  have hE2 : entriesPure dec 0 (encodeEntries specs ++ rest) N
      = Except.error (MempoolError.entryRead specs.length e) := by
    have hsplit : N = specs.length + ((N - specs.length - 1) + 1) := by omega
    rw [hsplit, entriesPure_append dec specs 0 _ rest hwf hdec]
    have hone : entriesPure dec (0 + specs.length) rest ((N - specs.length - 1) + 1)
        = Except.error (MempoolError.entryRead (0 + specs.length) e) := by
      simp only [entriesPure, hfail]
    rw [hone, Nat.zero_add]
  rw [hE2]

/-- Witness for C3: a loop asked for one entry on an empty stream fails at
index 0, and a version-1 dump declaring one entry but ending immediately
fails with an `EntryRead` error at index 0. -/
theorem c3_witness :
    readEntries decNone 0 (⟨[], 0, [], some 0⟩ : XorReader) 1
      = Except.error (MempoolError.entryRead (0 + 0) IOError.invalidData) ∧
    read_mempool decNone
        (toLEBytes 8 1 ++ (toLEBytes 8 1
          ++ (encodeEntries ([] : List (EntrySpec Nat)) ++ [])))
      = Except.error (MempoolError.entryRead 0 IOError.invalidData) :=
  ⟨(c3_entry_failure decNone 1 1 [] [] IOError.invalidData (by norm_num) (by decide)
      (by norm_num) (by decide)
      (by
        intro x hx
        exact absurd hx (List.not_mem_nil x))
      (by
        intro x hx
        exact absurd hx (List.not_mem_nil x))
      rfl).1 0 0 1 ⟨[], 0, [], some 0⟩ ⟨[], 0, [], some 0⟩ [] IOError.invalidData
        rfl rfl (by decide),
   (c3_entry_failure decNone 1 1 [] [] IOError.invalidData (by norm_num) (by decide)
      (by norm_num) (by decide)
      (by
        intro x hx
        exact absurd hx (List.not_mem_nil x))
      (by
        intro x hx
        exact absurd hx (List.not_mem_nil x))
      rfl).2⟩

/-- C4: on every successful decode, the snapshot field `xor_key` is `Some` if
and only if the header version equals 2 (in particular `Some []` when the
declared key length byte is 0), and a reader configured with the empty key
applies no transformation to the bytes it reads. -/
theorem c4_xor_key_iff_v2 {τ : Type} (dec : TxDecoder τ) (file : List UInt8)
    (m : Mempool τ) (h : read_mempool dec file = Except.ok m) :
    (m.xor_key.isSome ↔ m.header.version = 2) ∧
    (∀ (r : XorReader) (n : Nat) (buf : List UInt8) (s : XorReader),
      r.xor_key = [] → r.read_exact n = Except.ok (buf, s) →
      buf = (r.fileData.drop r.cursor).take n) := by
  refine ⟨?_, ?_⟩
  · unfold read_mempool at h
    split at h
    · exact absurd h (by simp)
    · rename_i a vb c1 hplain
      dsimp only at h
      split at h
      · exact absurd h (by simp)
      · rename_i ks xk ck hv
        dsimp only [XorReader.new, Except.toOption] at h
        split at h
        · exact absurd h (by simp)
        · split at h
          · exact absurd h (by simp)
          · simp only [Except.ok.injEq] at h
            subst h
            show xk.isSome ↔ u64_from_le vb = 2
            by_cases hveq : u64_from_le vb = 2
            · rw [if_pos hveq] at hv
              split at hv
              · exact absurd hv (by simp)
              · split at hv
                · exact absurd hv (by simp)
                · simp only [Except.ok.injEq, Prod.mk.injEq] at hv
                  rw [← hv.1]
                  simp [hveq]
            · rw [if_neg hveq] at hv
              simp only [Except.ok.injEq, Prod.mk.injEq] at hv
              rw [← hv.1]
              simp [hveq]
  · intro r n buf s hk hre
    rw [read_exact_empty_key r n hk] at hre
    split at hre
    · simp only [Except.ok.injEq, Prod.mk.injEq] at hre
      exact hre.1.symm
    · exact absurd hre (by simp)

/-- Witness for C4 at a concrete dump: a version-1 empty dump decodes with
no key (and version 1 ≠ 2), and a concrete empty-key read is untransformed. -/
theorem c4_witness :
    (({ header := { version := 1, num_tx := 0 }, xor_key := none, entries := [],
        map_deltas := [] } : Mempool Nat).xor_key.isSome ↔
      ({ header := { version := 1, num_tx := 0 }, xor_key := none, entries := [],
         map_deltas := [] } : Mempool Nat).header.version = 2) ∧
    ([0x42] : List UInt8) = ((([0x42] : List UInt8).drop 0).take 1) :=
  ⟨(c4_xor_key_iff_v2 decNone (toLEBytes 8 1 ++ toLEBytes 8 0)
      { header := { version := 1, num_tx := 0 }, xor_key := none, entries := [],
        map_deltas := [] } rfl).1,
   (c4_xor_key_iff_v2 decNone (toLEBytes 8 1 ++ toLEBytes 8 0)
      { header := { version := 1, num_tx := 0 }, xor_key := none, entries := [],
        map_deltas := [] } rfl).2
     ⟨[0x42], 0, [], some 0⟩ 1 [0x42] ⟨[0x42], 1, [], some 1⟩ rfl rfl⟩

/-! ### Version-2 decode path -/

theorem read_mempool_v2 {τ : Type} (dec : TxDecoder τ) (key body : List UInt8)
    (hkl : key.length ≤ 255) :
    read_mempool dec (toLEBytes 8 2 ++ UInt8.ofNat key.length :: (key ++ body)) =
      match XorReader.read_u64_le
          ⟨toLEBytes 8 2 ++ UInt8.ofNat key.length :: (key ++ body),
           9 + key.length, key, some (9 + key.length)⟩ with
      | Except.error e => Except.error (MempoolError.headerRead e)
      | Except.ok (num_tx, r1) =>
        match readEntries dec 0 r1 num_tx with
        | Except.error e => Except.error e
        | Except.ok (entries, _) =>
          Except.ok { header := { version := 2, num_tx := num_tx },
                      xor_key := some key, entries := entries, map_deltas := [] } := by
  have hplain0 : plainReadExact
      (toLEBytes 8 2 ++ UInt8.ofNat key.length :: (key ++ body)) 0 8
      = Except.ok (toLEBytes 8 2, 8) := by
    have h := plainReadExact_append [] (toLEBytes 8 2)
      (UInt8.ofNat key.length :: (key ++ body))
    simpa [length_toLEBytes] using h
  have hplain1 : plainReadExact
      (toLEBytes 8 2 ++ UInt8.ofNat key.length :: (key ++ body)) 8 1
      = Except.ok ([UInt8.ofNat key.length], 9) := by
    have h := plainReadExact_append (toLEBytes 8 2) [UInt8.ofNat key.length]
      (key ++ body)
    rw [show toLEBytes 8 2 ++ ([UInt8.ofNat key.length] ++ (key ++ body))
        = toLEBytes 8 2 ++ UInt8.ofNat key.length :: (key ++ body) from by simp] at h
    rw [length_toLEBytes] at h
    simpa using h
  have hks : (([UInt8.ofNat key.length] : List UInt8).getD 0 0).toNat = key.length := by
    show (UInt8.ofNat key.length).toNat = key.length
    show key.length % 256 = key.length
    exact Nat.mod_eq_of_lt (by omega)
  have hplain2 : plainReadExact
      (toLEBytes 8 2 ++ UInt8.ofNat key.length :: (key ++ body)) 9 key.length
      = Except.ok (key, 9 + key.length) := by
    have h := plainReadExact_append (toLEBytes 8 2 ++ [UInt8.ofNat key.length]) key body
    rw [show (toLEBytes 8 2 ++ [UInt8.ofNat key.length]) ++ (key ++ body)
        = toLEBytes 8 2 ++ UInt8.ofNat key.length :: (key ++ body) from by simp] at h
    rw [show (toLEBytes 8 2 ++ [UInt8.ofNat key.length]).length = 9 from by
      simp [length_toLEBytes]] at h
    exact h
  unfold read_mempool
  rw [hplain0]
  dsimp only
  rw [u64_round 2 (by norm_num), if_pos rfl, hplain1]
  dsimp only
  rw [hks, hplain2]
  dsimp only [XorReader.new, Option.getD, Except.toOption]

theorem stripVK_non_v2 {τ : Type} (dec : TxDecoder τ) (v : Nat) (rest : List UInt8)
    (hv : v < 2 ^ 64) (hv2 : v ≠ 2) :
    stripVK (read_mempool dec (toLEBytes 8 v ++ rest)) =
      if 8 ≤ rest.length then
        match entriesPure dec 0 (rest.drop 8) (u64_from_le (rest.take 8)) with
        | Except.error e => Except.error e
        | Except.ok (es, _) => Except.ok (u64_from_le (rest.take 8), es)
      else Except.error (MempoolError.headerRead IOError.eof) := by
  rw [read_mempool_non_v2 dec v rest hv hv2]
  by_cases h8 : 8 ≤ rest.length
  · rw [if_pos h8, if_pos h8]
    cases entriesPure dec 0 (rest.drop 8) (u64_from_le (rest.take 8)) with
    | error e => rfl
    | ok pr =>
      obtain ⟨es, s⟩ := pr
      rfl
  · rw [if_neg h8, if_neg h8]
    rfl

theorem stripVK_v2_empty {τ : Type} (dec : TxDecoder τ) (rest : List UInt8) :
    stripVK (read_mempool dec (toLEBytes 8 2 ++ (0 : UInt8) :: rest)) =
      if 8 ≤ rest.length then
        match entriesPure dec 0 (rest.drop 8) (u64_from_le (rest.take 8)) with
        | Except.error e => Except.error e
        | Except.ok (es, _) => Except.ok (u64_from_le (rest.take 8), es)
      else Except.error (MempoolError.headerRead IOError.eof) := by
  have h2 : read_mempool dec (toLEBytes 8 2 ++ (0 : UInt8) :: rest) =
      match XorReader.read_u64_le
          ⟨toLEBytes 8 2 ++ (0 : UInt8) :: rest, 9, [], some 9⟩ with
      | Except.error e => Except.error (MempoolError.headerRead e)
      | Except.ok (num_tx, r1) =>
        match readEntries dec 0 r1 num_tx with
        | Except.error e => Except.error e
        | Except.ok (entries, _) =>
          Except.ok { header := { version := 2, num_tx := num_tx },
                      xor_key := some [], entries := entries, map_deltas := [] } :=
    read_mempool_v2 dec [] rest (by norm_num)
  rw [h2, read_u64_empty_key ⟨toLEBytes 8 2 ++ (0 : UInt8) :: rest, 9, [], some 9⟩ rfl]
  have hrem : (⟨toLEBytes 8 2 ++ (0 : UInt8) :: rest, 9, [], some 9⟩ :
      XorReader).remaining = rest := by
    show (toLEBytes 8 2 ++ (0 : UInt8) :: rest).drop 9 = rest
    have h := List.drop_left (toLEBytes 8 2 ++ [(0 : UInt8)]) rest
    rw [show (toLEBytes 8 2 ++ [(0 : UInt8)]) ++ rest
        = toLEBytes 8 2 ++ (0 : UInt8) :: rest from by simp] at h
    rw [show (toLEBytes 8 2 ++ [(0 : UInt8)]).length = 9 from by
      simp [length_toLEBytes]] at h
    exact h
  have hcond : (⟨toLEBytes 8 2 ++ (0 : UInt8) :: rest, 9, [], some 9⟩ :
      XorReader).fileData.length - 9 = rest.length := by
    show (toLEBytes 8 2 ++ (0 : UInt8) :: rest).length - 9 = rest.length
    simp [List.length_append, length_toLEBytes]
    omega
  rw [hcond, hrem]
  by_cases h8 : 8 ≤ rest.length
  · rw [if_pos h8, if_pos h8]
    dsimp only
    have hbis := entries_empty_key dec 0 (u64_from_le (rest.take 8))
      ((⟨toLEBytes 8 2 ++ (0 : UInt8) :: rest, 9, [], some 9⟩ : XorReader).advance 8)
      rfl
    rw [remaining_advance, hrem] at hbis
    cases hE : readEntries dec 0
        ((⟨toLEBytes 8 2 ++ (0 : UInt8) :: rest, 9, [], some 9⟩ : XorReader).advance 8)
        (u64_from_le (rest.take 8)) with
    | error e =>
      rw [hE] at hbis
      rw [← hbis]
      rfl
    | ok pr =>
      obtain ⟨es, rr⟩ := pr
      rw [hE] at hbis
      rw [← hbis]
      rfl
  · rw [if_neg h8, if_neg h8]
    rfl

/-- C8: a version-2 dump whose declared key length byte is 0 decodes its
obfuscated region exactly as a non-version-2 dump with the same region
content and no key — same transaction count, same entries, same errors —
and every read through an empty-key reader returns the underlying bytes
unchanged. -/
theorem c8_empty_key_identity {τ : Type} (dec : TxDecoder τ) (rest : List UInt8) :
    stripVK (read_mempool dec (toLEBytes 8 2 ++ (0 : UInt8) :: rest)) =
      stripVK (read_mempool dec (toLEBytes 8 1 ++ rest)) ∧
    (∀ (r : XorReader) (n : Nat) (buf : List UInt8) (s : XorReader),
      r.xor_key = [] → r.read_exact n = Except.ok (buf, s) →
      buf = r.remaining.take n) := by
  constructor
  · rw [stripVK_v2_empty dec rest, stripVK_non_v2 dec 1 rest (by norm_num) (by decide)]
  · intro r n buf s hk hre
    rw [read_exact_empty_key r n hk] at hre
    split at hre
    · simp only [Except.ok.injEq, Prod.mk.injEq] at hre
      exact hre.1.symm
    · exact absurd hre (by simp)

/-- Witness for C8 at a concrete dump pair: an empty-key version-2 dump with
a zero count decodes (up to version and key fields) like the version-1 dump
with the same region bytes, and a concrete empty-key read is untransformed. -/
theorem c8_witness :
    (stripVK (read_mempool decNone (toLEBytes 8 2 ++ (0 : UInt8) :: toLEBytes 8 0)) =
      stripVK (read_mempool decNone (toLEBytes 8 1 ++ toLEBytes 8 0))) ∧
    ([0x5A] : List UInt8) =
      (⟨[0x5A], 0, [], some 0⟩ : XorReader).remaining.take 1 :=
  ⟨(c8_empty_key_identity decNone (toLEBytes 8 0)).1,
   (c8_empty_key_identity decNone (toLEBytes 8 0)).2
     ⟨[0x5A], 0, [], some 0⟩ 1 [0x5A] ⟨[0x5A], 1, [], some 1⟩ rfl rfl⟩

/-- C1 (amended): in a version-2 dump with a non-empty key of length `L`,
the cipher offset of a byte is its absolute offset from the start of the
FILE, not from the start of the obfuscated region: with `H = 9 + L` header
and key bytes preceding the region, the decoded `num_tx` is the 8 on-disk
bytes XORed starting at cipher offset `H` (so byte `i` of the field uses
`key[(H + i) mod L]`). -/
theorem c1_amended_num_tx {τ : Type} (dec : TxDecoder τ) (key body : List UInt8)
    (m : Mempool τ) (hk : key ≠ []) (hkl : key.length ≤ 255) (hb : 8 ≤ body.length)
    (h : read_mempool dec (toLEBytes 8 2 ++ UInt8.ofNat key.length :: (key ++ body))
      = Except.ok m) :
    m.header.num_tx = u64_from_le (xor_buffer (body.take 8) key (9 + key.length)) ∧
    (∀ i, i < 8 → (xor_buffer (body.take 8) key (9 + key.length)).getD i 0
      = body.getD i 0 ^^^ key.getD ((9 + key.length + i) % key.length) 0) := by
  constructor
  · rw [read_mempool_v2 dec key body hkl] at h
    have hdropf : (toLEBytes 8 2 ++ UInt8.ofNat key.length :: (key ++ body)).drop
        (9 + key.length) = body := by
      have hd := List.drop_left (toLEBytes 8 2 ++ UInt8.ofNat key.length :: key) body
      rw [show (toLEBytes 8 2 ++ UInt8.ofNat key.length :: key) ++ body
          = toLEBytes 8 2 ++ UInt8.ofNat key.length :: (key ++ body) from by simp] at hd
      rw [show (toLEBytes 8 2 ++ UInt8.ofNat key.length :: key).length = 9 + key.length
          from by simp [length_toLEBytes, List.length_cons]; omega] at hd
      exact hd
    have hflen : (toLEBytes 8 2 ++ UInt8.ofNat key.length :: (key ++ body)).length
        - (9 + key.length) = body.length := by
      simp [List.length_append, length_toLEBytes, List.length_cons]
      omega
    rw [XorReader.read_u64_le,
      read_exact_of_pos ⟨toLEBytes 8 2 ++ UInt8.ofNat key.length :: (key ++ body),
        9 + key.length, key, some (9 + key.length)⟩ 8 (9 + key.length) rfl] at h
    rw [show (⟨toLEBytes 8 2 ++ UInt8.ofNat key.length :: (key ++ body),
        9 + key.length, key, some (9 + key.length)⟩ : XorReader).fileData.length
        - (⟨toLEBytes 8 2 ++ UInt8.ofNat key.length :: (key ++ body),
        9 + key.length, key, some (9 + key.length)⟩ : XorReader).cursor
        = body.length from hflen] at h
    rw [if_pos hb] at h
    rw [show List.drop (⟨toLEBytes 8 2 ++ UInt8.ofNat key.length :: (key ++ body),
        9 + key.length, key, some (9 + key.length)⟩ : XorReader).cursor
        (toLEBytes 8 2 ++ UInt8.ofNat key.length :: (key ++ body)) = body
        from hdropf] at h
    dsimp only at h
    split at h
    · exact absurd h (by simp)
    · simp only [Except.ok.injEq] at h
      subst h
      rfl
  · intro i hi
    have hlen8 : (body.take 8).length = 8 := by
      rw [List.length_take]
      omega
    rw [xor_buffer_getD _ _ _ _ hk (by rw [hlen8]; exact hi), getD_take _ _ _ hi]

/-- Witness for C1 (amended) at the concrete version-2 fixture with key
`[0xAA, 0x55]`: the decoded count is the on-disk bytes deciphered starting
at absolute file offset 11, and byte 0 of the field uses `key[11 mod 2]`. -/
theorem c1_amended_witness :
    c1Mempool.header.num_tx
      = u64_from_le (xor_buffer (c1Body.take 8) c1Key (9 + c1Key.length)) ∧
    (xor_buffer (c1Body.take 8) c1Key (9 + c1Key.length)).getD 0 0
      = c1Body.getD 0 0 ^^^ c1Key.getD ((9 + c1Key.length + 0) % c1Key.length) 0 :=
  ⟨(c1_amended_num_tx decNone c1Key c1Body c1Mempool (by decide) (by decide)
      (by decide) rfl).1,
   (c1_amended_num_tx decNone c1Key c1Body c1Mempool (by decide) (by decide)
      (by decide) rfl).2 0 (by decide)⟩

/-- C1 counterexample: on the version-2 fixture with the 2-byte key
`[0xAA, 0x55]`, the decoder returns `num_tx = 0`, but deciphering the same
8 on-disk bytes with the key starting at offset 0 of the obfuscated region
(as the claim prescribes: the field "occupies cipher offsets 0 through 7")
yields `2^64 - 1 ≠ 0`: the cipher offset is not region-relative, and the
header and key bytes preceding the region do shift it. -/
theorem c1_counterexample :
    read_mempool decNone c1File = Except.ok c1Mempool ∧
    c1Mempool.header.num_tx = 0 ∧
    u64_from_le (xor_buffer c1Body c1Key 0) = 2 ^ 64 - 1 ∧
    (0 : Nat) ≠ 2 ^ 64 - 1 :=
  ⟨rfl, rfl, by decide, by decide⟩

end MempoolRs
